import Mathlib

/-!
Shallow embedding of the mini-block ledger (src/src/main.rs).

The SHA-256 digest itself comes from the external sha2 crate, so it is kept
abstract as a parameter `sha : String → String`; everything the repository's
own code does around it (the exact byte sequence fed to the hasher, mining,
chain growth, validation, command dispatch) is embedded faithfully below.
The unbounded mining loop is embedded with explicit fuel returning `Option`:
`some` results coincide with what the Rust loop returns whenever it
terminates.
-/

namespace MiniBlock

/-- Number of leading zero characters required by mining; the source constant
`DIFFICULTY` at src/src/main.rs line 7. -/
def DIFFICULTY : Nat := 4

/-- Payload unit: `Transaction { sender, receiver, amount: u32 }`. The amount
is only ever converted to its decimal string, so it is carried as `Nat`. -/
structure Transaction where
  sender : String
  receiver : String
  amount : Nat
deriving DecidableEq

/-- A stored block with all six persisted fields, as in `struct Block`. -/
structure Block where
  index : Nat
  timestamp : Nat
  transactions : List Transaction
  previous_hash : String
  hash : String
  nonce : Nat
deriving DecidableEq

/-- The exact byte sequence `Block::calculate_hash` feeds to the hasher:
decimal `index`, decimal `timestamp`, decimal `nonce`, then for each
transaction in order its `sender`, `receiver` and decimal `amount`, and
finally `previous_hash` — concatenated with no separators. -/
def hashInput (index timestamp : Nat) (transactions : List Transaction)
    (previous_hash : String) (nonce : Nat) : String :=
  Nat.repr index ++ Nat.repr timestamp ++ Nat.repr nonce ++
    String.join (transactions.map (fun tx => tx.sender ++ tx.receiver ++ Nat.repr tx.amount)) ++
    previous_hash

/-- `Block::calculate_hash`, relative to the abstract digest `sha` (the sha2
crate's SHA-256 followed by lowercase-hex formatting in the source). -/
def calculate_hash (sha : String → String) (index timestamp : Nat)
    (transactions : List Transaction) (previous_hash : String) (nonce : Nat) : String :=
  sha (hashInput index timestamp transactions previous_hash nonce)

/-- The string `"0".repeat n` from the mining condition. -/
def zeros (n : Nat) : String := String.mk (List.replicate n '0')

/-- The mining acceptance test: `hash.starts_with(&"0".repeat(DIFFICULTY))`,
embedded as a character-prefix test (which is what `str::starts_with` is). -/
def meetsDifficulty (s : String) : Bool := (zeros DIFFICULTY).data.isPrefixOf s.data

/-- The mining loop of `Block::new`: try nonces `n, n+1, ...` until the digest
meets the difficulty test. The source loop is unbounded; `fuel` bounds it here,
with `none` meaning the loop had not yet terminated within `fuel` attempts. -/
def mineAux (meets : Nat → Bool) : Nat → Nat → Option Nat
  | 0, _ => none
  | fuel + 1, n => if meets n then some n else mineAux meets fuel (n + 1)

/-- `Block::new`: the wall-clock timestamp is captured once and passed in as
`timestamp`; the nonce search starts at 0; the stored hash is the digest of
the accepted nonce. -/
def Block.new (sha : String → String) (index timestamp : Nat)
    (transactions : List Transaction) (previous_hash : String) (fuel : Nat) : Option Block :=
  (mineAux
      (fun n => meetsDifficulty (calculate_hash sha index timestamp transactions previous_hash n))
      fuel 0).map fun n =>
    { index := index, timestamp := timestamp, transactions := transactions,
      previous_hash := previous_hash,
      hash := calculate_hash sha index timestamp transactions previous_hash n,
      nonce := n }

/-- `struct Blockchain { blocks: Vec<Block> }`. -/
structure Blockchain where
  blocks : List Block
deriving DecidableEq

/-- `Blockchain::new`: start empty and push the genesis block
`Block::new(0, vec![], "0")`. -/
def Blockchain.new (sha : String → String) (timestamp fuel : Nat) : Option Blockchain :=
  (Block.new sha 0 timestamp [] "0" fuel).map fun g => { blocks := [g] }

/-- `Blockchain::add_block`: read the last block (`unwrap` panics on an empty
vector, modelled as `none`), build the next block with `index + 1` and the
last block's hash, and push it. -/
def Blockchain.add_block (sha : String → String) (bc : Blockchain)
    (transactions : List Transaction) (timestamp fuel : Nat) : Option Blockchain :=
  bc.blocks.getLast?.bind fun previous_block =>
    (Block.new sha (previous_block.index + 1) timestamp transactions
        previous_block.hash fuel).map
      fun b => { blocks := bc.blocks ++ [b] }

/-- The loop body of `Blockchain::is_chain_valid` for positions `1..len`:
`previous` is the block at position `i - 1` and the list holds the blocks from
position `i` on. The first `if` re-derives the digest from the block's own
stored fields; the second compares the stored link. -/
def validFrom (sha : String → String) : Block → List Block → Bool
  | _, [] => true
  | previous, current :: rest =>
      if current.hash ≠ calculate_hash sha current.index current.timestamp
          current.transactions current.previous_hash current.nonce then false
      else if current.previous_hash ≠ previous.hash then false
      else validFrom sha current rest

/-- `Blockchain::is_chain_valid`: the loop runs for `i` in `1..blocks.len()`,
so chains with at most one block are vacuously valid. -/
def Blockchain.is_chain_valid (sha : String → String) (bc : Blockchain) : Bool :=
  match bc.blocks with
  | [] => true
  | g :: rest => validFrom sha g rest

/-- The first test of the validation loop body, as a proposition: the stored
hash matches the digest re-derived from the block's own stored fields. -/
def hashOk (sha : String → String) (b : Block) : Prop :=
  b.hash = calculate_hash sha b.index b.timestamp b.transactions b.previous_hash b.nonce

/-- Identity digest used to instantiate the abstract hasher in witnesses. -/
def idSha : String → String := fun s => s

/-- A lone tampered genesis block used by witnesses: its hash is garbage, its
previous hash is not the sentinel. -/
def bogusGenesis : Block :=
  { index := 99, timestamp := 3, transactions := [], previous_hash := "nope",
    hash := "garbage", nonce := 7 }

/-- A concrete two-block chain, valid under the identity digest, for the C2
witness. -/
def chainW2 : Blockchain :=
  { blocks := [bogusGenesis,
      { index := 100, timestamp := 4, transactions := [], previous_hash := "garbage",
        hash := hashInput 100 4 [] "garbage" 0, nonce := 0 }] }

/-- Constant digest meeting the difficulty test, used to make witness mining
finish at nonce 0. -/
def constSha : String → String := fun _ => zeros DIFFICULTY

/-- Genesis block mined under `constSha` at timestamp 5. -/
def gBlockW : Block :=
  { index := 0, timestamp := 5, transactions := [], previous_hash := "0",
    hash := zeros DIFFICULTY, nonce := 0 }

/-- Second block mined under `constSha` at timestamp 6. -/
def blockW1 : Block :=
  { index := 1, timestamp := 6, transactions := [], previous_hash := zeros DIFFICULTY,
    hash := zeros DIFFICULTY, nonce := 0 }

/-- The chain `new()` produces under `constSha`. -/
def chainW1g : Blockchain := { blocks := [gBlockW] }

/-- The chain after one further `add_block` under `constSha`. -/
def chainW1 : Blockchain := { blocks := [gBlockW, blockW1] }

/-- Chains produced solely by `Blockchain::new()` followed by a finite
sequence of `add_block` calls, each call supplying its own wall-clock
timestamp and enough fuel for its mining loop to finish. -/
inductive Reachable (sha : String → String) : Blockchain → Prop
  | new : ∀ timestamp fuel bc, Blockchain.new sha timestamp fuel = some bc →
      Reachable sha bc
  | add : ∀ bc transactions timestamp fuel bc', Reachable sha bc →
      bc.add_block sha transactions timestamp fuel = some bc' → Reachable sha bc'

/-- The digit-accumulating loop of Rust `str::parse::<u32>`: each step is a
checked multiply-by-ten and checked add, failing at or beyond `2 ^ 32` and on
any non-digit character. -/
def parseU32Digits : List Char → Nat → Option Nat
  | [], acc => some acc
  | c :: rest, acc =>
      if c.isDigit then
        if acc * 10 + (c.toNat - Char.toNat '0') < 2 ^ 32 then
          parseU32Digits rest (acc * 10 + (c.toNat - Char.toNat '0'))
        else none
      else none

/-- Rust `amount.parse::<u32>()`: an optional leading plus sign, then one or
more ASCII digits, rejecting the empty string, a lone sign, any other
character, and overflow. -/
def parseU32 (s : String) : Option Nat :=
  match s.data with
  | [] => none
  | '+' :: rest => if rest = [] then none else parseU32Digits rest 0
  | cs => parseU32Digits cs 0

/-- `input.split_whitespace()`: split the character list on whitespace runs,
producing the non-empty tokens in order (`cur` holds the current token
reversed). -/
def splitWsAux : List Char → List Char → List String
  | [], cur => if cur = [] then [] else [String.mk cur.reverse]
  | c :: rest, cur =>
      if c.isWhitespace then
        if cur = [] then splitWsAux rest []
        else String.mk cur.reverse :: splitWsAux rest []
      else splitWsAux rest (c :: cur)

/-- The token list `main` matches on: `input.trim().split_whitespace()`. -/
def tokenize (s : String) : List String := splitWsAux s.data []

/-- Observable effect of one iteration of the command loop in `main`: the
resulting chain, whether `save_to_file` ran, and the message printed about
the command itself. -/
structure StepResult where
  chain : Blockchain
  saved : Bool
  message : String
deriving DecidableEq

/-- One iteration of the command loop of `main` on one input line. Only a
four-token `add` command with a parsable amount builds a transaction and
calls `add_block` (and saves on completion); every other line leaves the
chain untouched and saves nothing. Timestamp and fuel are the environment of
the iteration's mining call. -/
def step (sha : String → String) (bc : Blockchain) (input : String)
    (timestamp fuel : Nat) : StepResult :=
  match tokenize input with
  | ["add", sender, receiver, amount] =>
      match parseU32 amount with
      | some a =>
          match bc.add_block sha [{ sender := sender, receiver := receiver, amount := a }]
              timestamp fuel with
          | some bc' =>
              { chain := bc', saved := true, message := "Block mined and added successfully!" }
          | none => { chain := bc, saved := false, message := "" }
      | none => { chain := bc, saved := false, message := "Invalid amount" }
  | ["view"] => { chain := bc, saved := false, message := "" }
  | ["validate"] => { chain := bc, saved := false, message := "" }
  | ["exit"] => { chain := bc, saved := false, message := "Goodbye!" }
  | _ => { chain := bc, saved := false, message := "Invalid command" }

/-- Modelled from the spec: the structured snapshot document the external
Snapshot Codec (serde_json, not part of this repository) produces, at the
level of the JSON data model. -/
inductive Json where
  | str (s : String)
  | num (n : Nat)
  | arr (items : List Json)
  | obj (fields : List (String × Json))

/-- Modelled from the spec: serialization of one transaction with its serde
field names. -/
def encodeTx (t : Transaction) : Json :=
  .obj [("sender", .str t.sender), ("receiver", .str t.receiver), ("amount", .num t.amount)]

/-- Modelled from the spec: serialization of one block record with the six
persisted fields. -/
def encodeBlock (b : Block) : Json :=
  .obj [("index", .num b.index), ("timestamp", .num b.timestamp),
        ("transactions", .arr (b.transactions.map encodeTx)),
        ("previous_hash", .str b.previous_hash), ("hash", .str b.hash),
        ("nonce", .num b.nonce)]

/-- Modelled from the spec: serialization of the whole chain. -/
def encodeChain (bc : Blockchain) : Json :=
  .obj [("blocks", .arr (bc.blocks.map encodeBlock))]

/-- Field lookup in a decoded JSON object. -/
def getField : List (String × Json) → String → Option Json
  | [], _ => none
  | (k, v) :: rest, key => if k = key then some v else getField rest key

/-- Elementwise decoding of a JSON array, failing if any element fails. -/
def decodeList {α : Type} (dec : Json → Option α) : List Json → Option (List α)
  | [] => some []
  | j :: rest =>
      match dec j, decodeList dec rest with
      | some x, some xs => some (x :: xs)
      | _, _ => none

/-- Modelled from the spec: deserialization of one transaction. -/
def decodeTx (j : Json) : Option Transaction :=
  match j with
  | .obj fields =>
      match getField fields "sender", getField fields "receiver", getField fields "amount" with
      | some (.str s), some (.str r), some (.num a) =>
          some { sender := s, receiver := r, amount := a }
      | _, _, _ => none
  | _ => none

/-- Modelled from the spec: deserialization of one block record. -/
def decodeBlock (j : Json) : Option Block :=
  match j with
  | .obj fields =>
      match getField fields "index", getField fields "timestamp",
          getField fields "transactions", getField fields "previous_hash",
          getField fields "hash", getField fields "nonce" with
      | some (.num i), some (.num t), some (.arr txs), some (.str p), some (.str h),
          some (.num n) =>
          match decodeList decodeTx txs with
          | some ts =>
              some { index := i, timestamp := t, transactions := ts,
                     previous_hash := p, hash := h, nonce := n }
          | none => none
      | _, _, _, _, _, _ => none
  | _ => none

/-- Modelled from the spec: deserialization of the whole chain. -/
def decodeChain (j : Json) : Option Blockchain :=
  match j with
  | .obj fields =>
      match getField fields "blocks" with
      | some (.arr bs) =>
          match decodeList decodeBlock bs with
          | some blocks => some { blocks := blocks }
          | none => none
      | _ => none
  | _ => none

/-- Result of `fs::read_to_string` on the snapshot path. -/
inductive ReadResult where
  | readErr
  | content (data : String)

/-- `Blockchain::load_from_file`, relative to an abstract text decoder for
the external serde_json collaborator: a read failure returns `None`, while
readable contents go through `serde_json::from_str(..).unwrap()` — a decode
failure panics, modelled as the `Except.error` case. -/
def load_from_file (decode : String → Option Blockchain) :
    ReadResult → Except String (Option Blockchain)
  | .readErr => .ok none
  | .content data =>
      match decode data with
      | some bc => .ok (some bc)
      | none => .error "panicked on from_str unwrap"

/-- The startup line of `main`:
`Blockchain::load_from_file(filename).unwrap_or_else(Blockchain::new)`. The
timestamp and fuel are the mining environment of the possible fresh genesis
block. -/
def startup (decode : String → Option Blockchain) (sha : String → String)
    (timestamp fuel : Nat) (r : ReadResult) : Except String (Option Blockchain) :=
  match load_from_file decode r with
  | .ok (some bc) => .ok (some bc)
  | .ok none => .ok (Blockchain.new sha timestamp fuel)
  | .error e => .error e

/-- Numeric value of a decimal digit character. -/
def charVal (c : Char) : Nat := c.toNat - Char.toNat '0'

/-- Decimal value of a character list read left to right. -/
def evalChars (l : List Char) : Nat := l.foldl (fun a c => a * 10 + charVal c) 0

/-- The contribution of one transaction to the hash input: sender, receiver
and decimal amount, concatenated with no separators. -/
def txStr (t : Transaction) : String := t.sender ++ t.receiver ++ Nat.repr t.amount

/-- Replacement of the element at one position of a list by the image of a
function, leaving every other element unchanged. -/
def mutateAt {α : Type} : List α → Nat → (α → α) → List α
  | [], _, _ => []
  | x :: rest, 0, f => f x :: rest
  | x :: rest, j + 1, f => x :: mutateAt rest j f

/-- A change of a single stored field of one transaction. -/
inductive TxMutation where
  | sender (v : String)
  | receiver (v : String)
  | amount (v : Nat)

def applyTxMutation (t : Transaction) : TxMutation → Transaction
  | .sender v => { t with sender := v }
  | .receiver v => { t with receiver := v }
  | .amount v => { t with amount := v }

/-- The new value written by a transaction-field change differs from the
stored one. -/
def txMutationChanges (t : Transaction) : TxMutation → Prop
  | .sender v => v ≠ t.sender
  | .receiver v => v ≠ t.receiver
  | .amount v => v ≠ t.amount

/-- A change of a single stored field of one block. -/
inductive FieldMutation where
  | index (v : Nat)
  | timestamp (v : Nat)
  | nonce (v : Nat)
  | previous_hash (v : String)
  | hash (v : String)
  | tx (j : Nat) (m : TxMutation)

def applyMutation (b : Block) : FieldMutation → Block
  | .index v => { b with index := v }
  | .timestamp v => { b with timestamp := v }
  | .nonce v => { b with nonce := v }
  | .previous_hash v => { b with previous_hash := v }
  | .hash v => { b with hash := v }
  | .tx j m =>
      { b with transactions := mutateAt b.transactions j (fun t => applyTxMutation t m) }

/-- The new value written by a block-field change differs from the stored
one (for a transaction-field change, the position must exist and that
transaction's field must change). -/
def mutationChanges (b : Block) : FieldMutation → Prop
  | .index v => v ≠ b.index
  | .timestamp v => v ≠ b.timestamp
  | .nonce v => v ≠ b.nonce
  | .previous_hash v => v ≠ b.previous_hash
  | .hash v => v ≠ b.hash
  | .tx j m =>
      ∃ h : j < b.transactions.length, txMutationChanges (b.transactions.get ⟨j, h⟩) m

lemma validFrom_cons (sha : String → String) (previous current : Block) (rest : List Block) :
    validFrom sha previous (current :: rest) = true ↔
      hashOk sha current ∧ current.previous_hash = previous.hash ∧
        validFrom sha current rest = true := by
  simp only [validFrom, hashOk]
  by_cases h1 : current.hash = calculate_hash sha current.index current.timestamp
      current.transactions current.previous_hash current.nonce
  · by_cases h2 : current.previous_hash = previous.hash <;> simp [h1, h2]
  · simp [h1]

lemma validFrom_iff (sha : String → String) (previous : Block) (l : List Block) :
    validFrom sha previous l = true ↔
      ∀ i, ∀ h : i < l.length,
        hashOk sha (l.get ⟨i, h⟩) ∧
          (l.get ⟨i, h⟩).previous_hash =
            ((previous :: l).get ⟨i, Nat.lt_succ_of_lt h⟩).hash := by
  induction l generalizing previous with
  | nil => simp [validFrom]
  | cons b t ih =>
    rw [validFrom_cons]
    constructor
    · rintro ⟨h1, h2, h3⟩ i hi
      match i with
      | 0 => exact ⟨h1, h2⟩
      | j + 1 =>
        have hj : j < t.length := by simpa using hi
        have := (ih b).mp h3 j hj
        simpa using this
    · intro h
      refine ⟨(h 0 (by simp)).1, (h 0 (by simp)).2, (ih b).mpr ?_⟩
      intro j hj
      have := h (j + 1) (by simpa using hj)
      simpa using this

lemma chain_valid_iff (sha : String → String) (bc : Blockchain) :
    bc.is_chain_valid sha = true ↔
      ∀ i, 1 ≤ i → ∀ h2 : i < bc.blocks.length,
        (bc.blocks.get ⟨i, h2⟩).hash =
            calculate_hash sha (bc.blocks.get ⟨i, h2⟩).index (bc.blocks.get ⟨i, h2⟩).timestamp
              (bc.blocks.get ⟨i, h2⟩).transactions (bc.blocks.get ⟨i, h2⟩).previous_hash
              (bc.blocks.get ⟨i, h2⟩).nonce ∧
          (bc.blocks.get ⟨i, h2⟩).previous_hash =
            (bc.blocks.get ⟨i - 1, by omega⟩).hash := by
  rcases bc with ⟨blocks⟩
  cases blocks with
  | nil => simp [Blockchain.is_chain_valid]
  | cons g rest =>
    show validFrom sha g rest = true ↔ _
    rw [validFrom_iff]
    constructor
    · intro h i h1 h2
      match i, h1 with
      | j + 1, _ =>
        have hj : j < rest.length := by simpa using h2
        have := h j hj
        simpa [hashOk] using this
    · intro h j hj
      have := h (j + 1) (by omega) (by simpa using Nat.succ_lt_succ hj)
      simpa [hashOk] using this

/-- C2: `is_chain_valid` returns true exactly when, for every position
`1 ≤ i < length`, the block at `i` has a stored hash equal to the digest
recomputed from its own stored fields and a `previous_hash` equal to the
stored hash of the block at `i - 1`; no difficulty (leading-zeros) condition
appears in the characterization. -/
theorem is_chain_valid_iff_checks (sha : String → String) (bc : Blockchain) :
    bc.is_chain_valid sha = true ↔
      ∀ i, 1 ≤ i → ∀ h2 : i < bc.blocks.length,
        (bc.blocks.get ⟨i, h2⟩).hash =
            calculate_hash sha (bc.blocks.get ⟨i, h2⟩).index (bc.blocks.get ⟨i, h2⟩).timestamp
              (bc.blocks.get ⟨i, h2⟩).transactions (bc.blocks.get ⟨i, h2⟩).previous_hash
              (bc.blocks.get ⟨i, h2⟩).nonce ∧
          (bc.blocks.get ⟨i, h2⟩).previous_hash =
            (bc.blocks.get ⟨i - 1, by omega⟩).hash :=
  chain_valid_iff sha bc

/-- C10: a chain with at most one block always validates, whatever the lone
block holds, because the loop runs from position 1. -/
theorem lone_block_valid (sha : String → String) (bc : Blockchain)
    (h : bc.blocks.length ≤ 1) : bc.is_chain_valid sha = true := by
  rcases bc with ⟨_ | ⟨b, _ | ⟨c, t⟩⟩⟩
  · rfl
  · rfl
  · simp at h

/-- Witness for C10 at a concrete tampered lone genesis block. -/
theorem lone_block_valid_witness :
    Blockchain.is_chain_valid idSha { blocks := [bogusGenesis] } = true :=
  lone_block_valid idSha { blocks := [bogusGenesis] } (by simp)

/-- Witness for C2: instantiating the characterization on a concrete
two-block chain and reading off the linkage at position 1. -/
theorem is_chain_valid_iff_checks_witness :
    (chainW2.blocks.get ⟨1, by simp [chainW2]⟩).previous_hash = "garbage" := by
  have h := (is_chain_valid_iff_checks idSha chainW2).mp (by decide) 1 (by omega)
    (by simp [chainW2])
  exact h.2.trans rfl

lemma mineAux_spec (meets : Nat → Bool) :
    ∀ fuel start n, mineAux meets fuel start = some n →
      start ≤ n ∧ meets n = true ∧ ∀ m, start ≤ m → m < n → meets m = false := by
  intro fuel
  induction fuel with
  | zero => intro start n h; simp [mineAux] at h
  | succ f ih =>
    intro start n h
    simp only [mineAux] at h
    cases hs : meets start with
    | true =>
      rw [hs] at h
      simp at h
      subst h
      exact ⟨Nat.le_refl _, hs, fun m hm1 hm2 => absurd hm1 (by omega)⟩
    | false =>
      rw [hs] at h
      simp at h
      obtain ⟨h1, h2, h3⟩ := ih (start + 1) n h
      refine ⟨by omega, h2, fun m hm1 hm2 => ?_⟩
      rcases Nat.eq_or_lt_of_le hm1 with heq | hlt
      · rw [← heq]; exact hs
      · exact h3 m hlt hm2

lemma Block.new_spec (sha : String → String) (index timestamp : Nat)
    (transactions : List Transaction) (previous_hash : String) (fuel : Nat) (b : Block)
    (h : Block.new sha index timestamp transactions previous_hash fuel = some b) :
    b.index = index ∧ b.timestamp = timestamp ∧ b.transactions = transactions ∧
      b.previous_hash = previous_hash ∧
      b.hash = calculate_hash sha index timestamp transactions previous_hash b.nonce ∧
      meetsDifficulty b.hash = true ∧
      ∀ m < b.nonce,
        meetsDifficulty (calculate_hash sha index timestamp transactions previous_hash m) =
          false := by
  unfold Block.new at h
  cases hm : mineAux
      (fun n => meetsDifficulty (calculate_hash sha index timestamp transactions previous_hash n))
      fuel 0 with
  | none => rw [hm] at h; simp at h
  | some n =>
    rw [hm] at h
    simp only [Option.map_some', Option.some.injEq] at h
    obtain ⟨-, hmeets, hleast⟩ := mineAux_spec _ fuel 0 n hm
    subst h
    refine ⟨rfl, rfl, rfl, rfl, rfl, hmeets, fun m hmn => ?_⟩
    exact hleast m (Nat.zero_le m) hmn

/-- C3: a block produced by `Block::new` (whenever the mining loop finishes)
stores a hash with `DIFFICULTY` leading zero characters, that hash is the
digest of its own nonce at the single captured timestamp, and no smaller
nonce satisfies the difficulty test for the same fixed inputs. -/
theorem mined_block_spec (sha : String → String) (index timestamp : Nat)
    (transactions : List Transaction) (previous_hash : String) (fuel : Nat) (b : Block)
    (h : Block.new sha index timestamp transactions previous_hash fuel = some b) :
    meetsDifficulty b.hash = true ∧
      b.timestamp = timestamp ∧
      b.hash = calculate_hash sha index timestamp transactions previous_hash b.nonce ∧
      ∀ m < b.nonce,
        meetsDifficulty (calculate_hash sha index timestamp transactions previous_hash m) =
          false := by
  obtain ⟨-, ht, -, -, hh, hm, hl⟩ :=
    Block.new_spec sha index timestamp transactions previous_hash fuel b h
  exact ⟨hm, ht, hh, fun m hmn => hl m hmn⟩

/-- Witness for C3 at concrete inputs: the mined block's hash meets the
difficulty test. -/
theorem mined_block_spec_witness :
    meetsDifficulty (Block.mk 1 6 [] "0" (zeros DIFFICULTY) 0).hash = true :=
  (mined_block_spec constSha 1 6 [] "0" 1 (Block.mk 1 6 [] "0" (zeros DIFFICULTY) 0)
    (by decide)).1

lemma validFrom_append (sha : String → String) (previous : Block) (l : List Block)
    (b last : Block) (h : validFrom sha previous l = true)
    (hlast : (previous :: l).getLast? = some last)
    (hb : hashOk sha b) (hl : b.previous_hash = last.hash) :
    validFrom sha previous (l ++ [b]) = true := by
  induction l generalizing previous with
  | nil =>
    simp only [List.getLast?_singleton, Option.some.injEq] at hlast
    subst hlast
    show validFrom sha previous [b] = true
    rw [validFrom_cons]
    exact ⟨hb, hl, rfl⟩
  | cons c t ih =>
    rw [validFrom_cons] at h
    obtain ⟨h1, h2, h3⟩ := h
    show validFrom sha previous (c :: (t ++ [b])) = true
    rw [validFrom_cons]
    refine ⟨h1, h2, ih c h3 ?_⟩
    rwa [List.getLast?_cons_cons] at hlast

/-- C1: every chain produced by `new()` followed by any finite sequence of
`add_block` calls passes `is_chain_valid`. -/
theorem reachable_valid (sha : String → String) (bc : Blockchain)
    (h : Reachable sha bc) : bc.is_chain_valid sha = true := by
  have main : bc.blocks ≠ [] ∧ bc.is_chain_valid sha = true := by
    induction h with
    | new timestamp fuel bc h =>
      unfold Blockchain.new at h
      cases hg : Block.new sha 0 timestamp [] "0" fuel with
      | none => rw [hg] at h; simp at h
      | some g =>
        rw [hg] at h
        simp only [Option.map_some', Option.some.injEq] at h
        subst h
        exact ⟨by simp, rfl⟩
    | add bc transactions timestamp fuel bc' hr hadd ih =>
      obtain ⟨hne, hv⟩ := ih
      unfold Blockchain.add_block at hadd
      cases hlast : bc.blocks.getLast? with
      | none => rw [hlast] at hadd; simp at hadd
      | some last =>
        rw [hlast] at hadd
        simp only [Option.some_bind] at hadd
        cases hb : Block.new sha (last.index + 1) timestamp transactions last.hash fuel with
        | none => rw [hb] at hadd; simp at hadd
        | some b =>
          rw [hb] at hadd
          simp only [Option.map_some', Option.some.injEq] at hadd
          subst hadd
          obtain ⟨hbi, hbt, hbtx, hbp, hbh, -, -⟩ := Block.new_spec _ _ _ _ _ _ _ hb
          obtain ⟨blocks⟩ := bc
          rcases blocks with _ | ⟨g, rest⟩
          · exact absurd rfl hne
          · refine ⟨by simp, ?_⟩
            show validFrom sha g (rest ++ [b]) = true
            refine validFrom_append sha g rest b last hv hlast ?_ ?_
            · show b.hash = calculate_hash sha b.index b.timestamp b.transactions
                b.previous_hash b.nonce
              rw [hbi, hbt, hbtx, hbp]
              exact hbh
            · rw [hbp]
  exact main.2

/-- Witness for C1: the concrete chain built under `constSha` by `new()` at
timestamp 5 and one `add_block` at timestamp 6 validates. -/
theorem reachable_valid_witness : chainW1.is_chain_valid constSha = true :=
  reachable_valid constSha chainW1
    (Reachable.add chainW1g [] 6 1 chainW1
      (Reachable.new 5 1 chainW1g (by decide))
      (by decide))

/-- C8: when `add_block` on a non-empty chain returns (mining finished), the
result is the old block list, unchanged, with exactly one block appended,
whose index is the last block's index plus one and whose `previous_hash` is
the last block's stored hash. -/
theorem add_block_appends (sha : String → String) (bc : Blockchain)
    (transactions : List Transaction) (timestamp fuel : Nat) (last : Block)
    (bc' : Blockchain) (hlast : bc.blocks.getLast? = some last)
    (h : bc.add_block sha transactions timestamp fuel = some bc') :
    ∃ b, bc'.blocks = bc.blocks ++ [b] ∧ b.index = last.index + 1 ∧
      b.previous_hash = last.hash ∧ b.transactions = transactions := by
  unfold Blockchain.add_block at h
  rw [hlast] at h
  simp only [Option.some_bind] at h
  cases hb : Block.new sha (last.index + 1) timestamp transactions last.hash fuel with
  | none => rw [hb] at h; simp at h
  | some b =>
    rw [hb] at h
    simp only [Option.map_some', Option.some.injEq] at h
    subst h
    obtain ⟨hbi, -, hbtx, hbp, -, -, -⟩ := Block.new_spec _ _ _ _ _ _ _ hb
    exact ⟨b, rfl, hbi, hbp, hbtx⟩

/-- Witness for C8 at a concrete one-block chain: the appended chain is the
old list plus exactly the mined block. -/
theorem add_block_appends_witness :
    chainW1.blocks = chainW1g.blocks ++ [blockW1] := by
  obtain ⟨b, h1, -, -, -⟩ := add_block_appends constSha chainW1g [] 6 1 gBlockW chainW1
    (by decide) (by decide)
  have hb : blockW1 = b := by
    have h2 := h1
    simp [chainW1, chainW1g] at h2
    exact h2
  rw [h1, hb]

/-- C4: `calculate_hash` is deterministic: equal argument tuples yield equal
digest strings (the embedding as a function of exactly these arguments also
records that the source reads no other state). -/
theorem calculate_hash_deterministic (sha : String → String)
    (i1 t1 : Nat) (txs1 : List Transaction) (p1 : String) (n1 : Nat)
    (i2 t2 : Nat) (txs2 : List Transaction) (p2 : String) (n2 : Nat)
    (hi : i1 = i2) (ht : t1 = t2) (htx : txs1 = txs2) (hp : p1 = p2) (hn : n1 = n2) :
    calculate_hash sha i1 t1 txs1 p1 n1 = calculate_hash sha i2 t2 txs2 p2 n2 := by
  subst hi; subst ht; subst htx; subst hp; subst hn; rfl

/-- Witness for C4 at concrete arguments. -/
theorem calculate_hash_deterministic_witness :
    calculate_hash idSha 1 2 [] "0" 0 = calculate_hash idSha 1 2 [] "0" 0 :=
  calculate_hash_deterministic idSha 1 2 [] "0" 0 1 2 [] "0" 0 rfl rfl rfl rfl rfl

/-- C9: on an `add` line whose amount fails to parse as a `u32`, the input
error is reported and the chain is left unchanged with no save; on a parsable
amount, exactly one transaction is built from the three tokens and handed to
`add_block`, and the result (when mining completes) replaces the chain and is
saved. -/
theorem add_command_effects (sha : String → String) (bc : Blockchain)
    (input sender receiver amount : String) (timestamp fuel : Nat)
    (htok : tokenize input = ["add", sender, receiver, amount]) :
    (parseU32 amount = none →
      step sha bc input timestamp fuel =
        { chain := bc, saved := false, message := "Invalid amount" }) ∧
    ∀ a, parseU32 amount = some a →
      step sha bc input timestamp fuel =
        match bc.add_block sha [{ sender := sender, receiver := receiver, amount := a }]
            timestamp fuel with
        | some bc' =>
            { chain := bc', saved := true, message := "Block mined and added successfully!" }
        | none => { chain := bc, saved := false, message := "" } := by
  constructor
  · intro hp
    simp only [step, htok, hp]
  · intro a hp
    simp only [step, htok, hp]

/-- Witness for C9: a concrete `add` line with a non-numeric amount leaves the
concrete chain unchanged, unsaved, and reports the error. -/
theorem add_command_effects_witness :
    step constSha chainW1g "add alice bob ten" 6 1 =
      { chain := chainW1g, saved := false, message := "Invalid amount" } :=
  (add_command_effects constSha chainW1g "add alice bob ten" "alice" "bob" "ten" 6 1
    (by decide)).1 (by decide)

lemma decodeList_map {α : Type} (dec : Json → Option α) (enc : α → Json)
    (h : ∀ x, dec (enc x) = some x) :
    ∀ l : List α, decodeList dec (l.map enc) = some l := by
  intro l
  induction l with
  | nil => rfl
  | cons x t ih => simp [decodeList, h, ih]

lemma decodeTx_encodeTx (t : Transaction) : decodeTx (encodeTx t) = some t := rfl

lemma decodeBlock_encodeBlock (b : Block) : decodeBlock (encodeBlock b) = some b := by
  show (match decodeList decodeTx (b.transactions.map encodeTx) with
      | some ts =>
          some { index := b.index, timestamp := b.timestamp, transactions := ts,
                 previous_hash := b.previous_hash, hash := b.hash, nonce := b.nonce }
      | none => none) = some b
  rw [decodeList_map decodeTx encodeTx decodeTx_encodeTx]

/-- C7: the snapshot round-trip law at the level of the structured document:
decoding the encoded chain restores every field of every block in order. -/
theorem snapshot_roundtrip (bc : Blockchain) : decodeChain (encodeChain bc) = some bc := by
  show (match decodeList decodeBlock (bc.blocks.map encodeBlock) with
      | some blocks => some (Blockchain.mk blocks)
      | none => none) = some bc
  rw [decodeList_map decodeBlock encodeBlock decodeBlock_encodeBlock]

/-- Counterexample for C5: a readable but undecodable snapshot does not fall
back to a fresh chain — startup panics on the `unwrap`. -/
theorem startup_undecodable_panics :
    startup (fun _ => none) constSha 5 1 (ReadResult.content "garbage") ≠
      Except.ok (Blockchain.new constSha 5 1) := by
  intro h
  exact Except.noConfusion h

/-- C5 amended: an unreadable snapshot silently falls back to a fresh `new()`
chain, but readable-yet-undecodable contents make startup panic instead of
falling back. -/
theorem startup_fallback (decode : String → Option Blockchain) (sha : String → String)
    (timestamp fuel : Nat) (s : String) (hs : decode s = none) :
    startup decode sha timestamp fuel ReadResult.readErr =
        Except.ok (Blockchain.new sha timestamp fuel) ∧
      startup decode sha timestamp fuel (ReadResult.content s) =
        Except.error "panicked on from_str unwrap" := by
  constructor
  · rfl
  · simp only [startup, load_from_file, hs]

/-- Witness for C5 (amended) at a concrete undecodable snapshot string. -/
theorem startup_fallback_witness :
    startup (fun _ => none) constSha 5 1 ReadResult.readErr =
      Except.ok (Blockchain.new constSha 5 1) :=
  (startup_fallback (fun _ => none) constSha 5 1 "garbage" rfl).1

lemma evalChars_append_singleton (l : List Char) (c : Char) :
    evalChars (l ++ [c]) = evalChars l * 10 + charVal c := by
  simp [evalChars, List.foldl_append]

lemma toDigitsCore_append (b : Nat) :
    ∀ fuel n ds, Nat.toDigitsCore b fuel n ds = Nat.toDigitsCore b fuel n [] ++ ds := by
  intro fuel
  induction fuel with
  | zero => intro n ds; rfl
  | succ f ih =>
    intro n ds
    simp only [Nat.toDigitsCore]
    by_cases h : n / b = 0
    · simp [h]
    · rw [if_neg h, if_neg h, ih (n / b) (Nat.digitChar (n % b) :: ds),
        ih (n / b) [Nat.digitChar (n % b)]]
      simp

lemma toDigitsCore_fuel (n : Nat) : ∀ fuel ds, n < fuel →
    Nat.toDigitsCore 10 fuel n ds = Nat.toDigitsCore 10 (n + 1) n ds := by
  induction n using Nat.strong_induction_on with
  | _ n ih =>
    intro fuel ds hf
    match fuel, hf with
    | f + 1, hf =>
      simp only [Nat.toDigitsCore]
      by_cases h : n / 10 = 0
      · simp [h]
      · rw [if_neg h, if_neg h]
        have h0 : 10 ≤ n := by
          by_contra hc
          exact h (Nat.div_eq_of_lt (by omega))
        have hlt : n / 10 < n := Nat.div_lt_self (by omega) (by omega)
        rw [ih (n / 10) hlt f _ (by omega), ih (n / 10) hlt n _ (by omega)]

lemma charVal_digitChar (m : Nat) (hm : m < 10) : charVal (Nat.digitChar m) = m := by
  interval_cases m <;> decide

lemma evalChars_toDigits (n : Nat) : evalChars (Nat.toDigits 10 n) = n := by
  induction n using Nat.strong_induction_on with
  | _ n ih =>
    unfold Nat.toDigits
    simp only [Nat.toDigitsCore]
    by_cases h : n / 10 = 0
    · rw [if_pos h]
      have hn : n < 10 := by
        by_contra hc
        rw [Nat.div_eq_zero_iff (by omega)] at h
        omega
      simp [evalChars, Nat.mod_eq_of_lt hn, charVal_digitChar n hn]
    · rw [if_neg h]
      have h0 : 10 ≤ n := by
        by_contra hc
        exact h (Nat.div_eq_of_lt (by omega))
      have hlt : n / 10 < n := Nat.div_lt_self (by omega) (by omega)
      rw [toDigitsCore_fuel (n / 10) n _ (by omega),
        toDigitsCore_append 10 (n / 10 + 1) (n / 10) _]
      have hrec : evalChars (Nat.toDigitsCore 10 (n / 10 + 1) (n / 10) []) = n / 10 :=
        ih (n / 10) hlt
      rw [evalChars_append_singleton, hrec,
        charVal_digitChar (n % 10) (Nat.mod_lt _ (by omega))]
      omega

lemma evalChars_repr (n : Nat) : evalChars (Nat.repr n).data = n :=
  evalChars_toDigits n

lemma repr_injective : Function.Injective Nat.repr := by
  intro a b h
  have ha := evalChars_repr a
  rw [h, evalChars_repr b] at ha
  exact ha.symm

lemma repr_data_injective {a b : Nat} (h : (Nat.repr a).data = (Nat.repr b).data) : a = b :=
  repr_injective (String.ext h)

lemma str_append_left_cancel {a b c : String} (h : a ++ b = a ++ c) : b = c := by
  apply String.ext
  have hd : a.data ++ b.data = a.data ++ c.data := by
    rw [← String.data_append, ← String.data_append, h]
  exact List.append_cancel_left hd

lemma str_append_right_cancel {a b c : String} (h : a ++ c = b ++ c) : a = b := by
  apply String.ext
  have hd : a.data ++ c.data = b.data ++ c.data := by
    rw [← String.data_append, ← String.data_append, h]
  exact List.append_cancel_right hd

lemma join_foldl_data (l : List String) : ∀ acc : String,
    (l.foldl (fun r s => r ++ s) acc).data =
      acc.data ++ (l.foldl (fun r s => r ++ s) "").data := by
  induction l with
  | nil => intro acc; simp
  | cons x t ih =>
    intro acc
    simp only [List.foldl_cons]
    rw [ih (acc ++ x), ih ("" ++ x)]
    simp [String.data_append, List.append_assoc]

lemma join_cons_data (x : String) (l : List String) :
    (String.join (x :: l)).data = x.data ++ (String.join l).data := by
  show (l.foldl (fun r s => r ++ s) ("" ++ x)).data = x.data ++ (String.join l).data
  rw [join_foldl_data l ("" ++ x)]
  simp [String.join, String.data_append]

lemma txStr_mutation_ne (t : Transaction) (m : TxMutation)
    (hm : txMutationChanges t m) : txStr (applyTxMutation t m) ≠ txStr t := by
  cases m with
  | sender v =>
    intro h
    exact hm (str_append_right_cancel (str_append_right_cancel h))
  | receiver v =>
    intro h
    exact hm (str_append_left_cancel (str_append_right_cancel h))
  | amount v =>
    intro h
    exact hm (repr_injective (str_append_left_cancel h))

lemma join_txStr_mutateAt_ne (m : TxMutation) :
    ∀ (txs : List Transaction) (j : Nat) (hj : j < txs.length),
      txMutationChanges (txs.get ⟨j, hj⟩) m →
      String.join ((mutateAt txs j (fun t => applyTxMutation t m)).map txStr) ≠
        String.join (txs.map txStr) := by
  intro txs
  induction txs with
  | nil => intro j hj; simp at hj
  | cons t rest ih =>
    intro j hj hm h
    have hd := congrArg String.data h
    cases j with
    | zero =>
      simp only [mutateAt, List.map_cons, join_cons_data] at hd
      exact txStr_mutation_ne t m hm (String.ext (List.append_cancel_right hd))
    | succ jj =>
      simp only [mutateAt, List.map_cons, join_cons_data] at hd
      exact ih jj (by simpa using hj) hm (String.ext (List.append_cancel_left hd))

lemma hashInput_mutation_ne (b : Block) (m : FieldMutation) (hm : mutationChanges b m)
    (hnothash : ∀ v, m ≠ FieldMutation.hash v) :
    hashInput (applyMutation b m).index (applyMutation b m).timestamp
        (applyMutation b m).transactions (applyMutation b m).previous_hash
        (applyMutation b m).nonce ≠
      hashInput b.index b.timestamp b.transactions b.previous_hash b.nonce := by
  cases m with
  | index v =>
    intro h
    exact hm (repr_injective (str_append_right_cancel (str_append_right_cancel
      (str_append_right_cancel (str_append_right_cancel h)))))
  | timestamp v =>
    intro h
    exact hm (repr_injective (str_append_left_cancel (str_append_right_cancel
      (str_append_right_cancel (str_append_right_cancel h)))))
  | nonce v =>
    intro h
    exact hm (repr_injective (str_append_left_cancel (str_append_right_cancel
      (str_append_right_cancel h))))
  | previous_hash v =>
    intro h
    exact hm (str_append_left_cancel h)
  | hash v => exact absurd rfl (hnothash v)
  | tx j tm =>
    obtain ⟨hj, htm⟩ := hm
    intro h
    exact join_txStr_mutateAt_ne tm b.transactions j hj htm
      (str_append_left_cancel (str_append_right_cancel h))

/-- C6: on a valid chain, changing exactly one stored field of a non-genesis
block (hash, previous_hash, index, nonce, timestamp, or one field of one of
its transactions) to a different value makes validation fail, provided the
abstract digest is injective (the collision-freeness idealization of
SHA-256). -/
theorem single_field_tamper_detected (sha : String → String)
    (hinj : Function.Injective sha) (bc : Blockchain) (i : Nat) (m : FieldMutation)
    (hv : bc.is_chain_valid sha = true) (h1 : 1 ≤ i) (h2 : i < bc.blocks.length)
    (hm : mutationChanges (bc.blocks.get ⟨i, h2⟩) m) :
    Blockchain.is_chain_valid sha
      { blocks := bc.blocks.set i (applyMutation (bc.blocks.get ⟨i, h2⟩) m) } = false := by
  have horig := (chain_valid_iff sha bc).mp hv i h1 h2
  cases hfin : Blockchain.is_chain_valid sha
      { blocks := bc.blocks.set i (applyMutation (bc.blocks.get ⟨i, h2⟩) m) } with
  | false => rfl
  | true =>
    exfalso
    have hlen : i < (bc.blocks.set i (applyMutation (bc.blocks.get ⟨i, h2⟩) m)).length := by
      simpa using h2
    have hmut := (chain_valid_iff sha _).mp hfin i h1 hlen
    have hget_i : (bc.blocks.set i (applyMutation (bc.blocks.get ⟨i, h2⟩) m)).get
        ⟨i, hlen⟩ = applyMutation (bc.blocks.get ⟨i, h2⟩) m := by
      simp [List.get_eq_getElem, List.getElem_set_self]
    have hpredlen : i - 1 < (bc.blocks.set i (applyMutation (bc.blocks.get ⟨i, h2⟩) m)).length := by
      simpa using Nat.lt_of_le_of_lt (Nat.sub_le i 1) h2
    have hget_pred : (bc.blocks.set i (applyMutation (bc.blocks.get ⟨i, h2⟩) m)).get
        ⟨i - 1, hpredlen⟩ = bc.blocks.get ⟨i - 1, by omega⟩ := by
      simp [List.get_eq_getElem]
      rw [List.getElem_set_ne (by omega : i ≠ i - 1)]
    rw [hget_i, hget_pred] at hmut
    obtain ⟨hmut1, hmut2⟩ := hmut
    obtain ⟨horig1, horig2⟩ := horig
    cases m with
    | hash v =>
      have hv_ne : v ≠ (bc.blocks.get ⟨i, h2⟩).hash := hm
      apply hv_ne
      calc v = calculate_hash sha (bc.blocks.get ⟨i, h2⟩).index
            (bc.blocks.get ⟨i, h2⟩).timestamp (bc.blocks.get ⟨i, h2⟩).transactions
            (bc.blocks.get ⟨i, h2⟩).previous_hash (bc.blocks.get ⟨i, h2⟩).nonce := hmut1
        _ = (bc.blocks.get ⟨i, h2⟩).hash := horig1.symm
    | previous_hash v =>
      have hv_ne : v ≠ (bc.blocks.get ⟨i, h2⟩).previous_hash := hm
      exact hv_ne (hmut2.trans horig2.symm)
    | index v =>
      exact hashInput_mutation_ne (bc.blocks.get ⟨i, h2⟩) (.index v) hm
        (fun w h => nomatch h) (hinj (hmut1.symm.trans horig1))
    | timestamp v =>
      exact hashInput_mutation_ne (bc.blocks.get ⟨i, h2⟩) (.timestamp v) hm
        (fun w h => nomatch h) (hinj (hmut1.symm.trans horig1))
    | nonce v =>
      exact hashInput_mutation_ne (bc.blocks.get ⟨i, h2⟩) (.nonce v) hm
        (fun w h => nomatch h) (hinj (hmut1.symm.trans horig1))
    | tx j tm =>
      exact hashInput_mutation_ne (bc.blocks.get ⟨i, h2⟩) (.tx j tm) hm
        (fun w h => nomatch h) (hinj (hmut1.symm.trans horig1))

/-- Witness for C6: changing only the nonce of the second block of a concrete
valid chain (under the injective identity digest) makes validation fail. -/
theorem single_field_tamper_detected_witness :
    Blockchain.is_chain_valid idSha
      { blocks := chainW2.blocks.set 1
          (applyMutation (chainW2.blocks.get ⟨1, by simp [chainW2]⟩)
            (FieldMutation.nonce 1)) } = false :=
  single_field_tamper_detected idSha (fun a b h => h) chainW2 1 (FieldMutation.nonce 1)
    (by decide) (by omega) (by simp [chainW2])
    (by exact (by decide : (1 : Nat) ≠ 0))

end MiniBlock
